import Mathlib

/-!
Verification of `find_aka_cve.py`: a shallow embedding of the script's
text-mining pipeline (regex heuristics over file text, alias filtering,
CVE normalization, CSV / generated-map emission) together with theorems
settling the specification's claims about it.

Texts are modelled as `List Char`; each Python regex is embedded as an
executable matcher that follows the backtracking semantics of the
compiled pattern (documented at each definition).  `re.finditer` drivers
carry a fuel argument equal to the text length; every single match
consumes at least one character, so that fuel is never exhausted before
the scan reaches the end of the text.
-/

namespace FindAkaCve

/-- Whitespace as matched by the script's patterns (`\s`, `str.strip`),
restricted to the ASCII range that the scanned module texts use. -/
def isPySpace (c : Char) : Bool :=
  c = ' ' || c = '\t' || c = '\n' || c = '\r' || c = '\x0b' || c = '\x0c'

/-- The separator class `[-\s_]` used around CVE digit groups. -/
def isSepCh (c : Char) : Bool :=
  c = '-' || c = '_' || isPySpace c

/-- The quote class `['"]` of the literal-array patterns. -/
def isQuoteCh (c : Char) : Bool :=
  c = '\'' || c = '\"'

/-- The class `[A-Z0-9]` under `re.IGNORECASE`: ASCII letters and digits. -/
def isAlnumCh (c : Char) : Bool :=
  c.isAlpha || c.isDigit

/-- `str.lstrip()` on characters. -/
def pyStripL (cs : List Char) : List Char :=
  cs.dropWhile isPySpace

/-- `str.rstrip()` on characters. -/
def pyStripR (cs : List Char) : List Char :=
  (cs.reverse.dropWhile isPySpace).reverse

/-- Python `str.strip()`. -/
def pyStrip (cs : List Char) : List Char :=
  pyStripR (pyStripL cs)

/-- The trailing characters removed by `rstrip(' ,;:')`. -/
def isTrailPunct (c : Char) : Bool :=
  c = ' ' || c = ',' || c = ';' || c = ':'

/-- `str.rstrip(' ,;:')`. -/
def rstripPunct (cs : List Char) : List Char :=
  (cs.reverse.dropWhile isTrailPunct).reverse

/-- Case-insensitive literal match: `pat` (given in lowercase) is a prefix
of `cs` up to ASCII case. -/
def startsWithCI : List Char → List Char → Bool
  | [], _ => true
  | _ :: _, [] => false
  | p :: ps, c :: cs => p = c.toLower && startsWithCI ps cs

/-- All characters are ASCII digits (`\d` over the scanned texts). -/
def allDigits (cs : List Char) : Bool :=
  cs.all Char.isDigit

/-- `str.split('-')` (note `splitDash [] = [[]]`, as `''.split('-') = ['']`). -/
def splitDash : List Char → List (List Char)
  | [] => [[]]
  | c :: cs =>
    let r := splitDash cs
    if c = '-' then [] :: r
    else
      match r with
      | [] => [[c]]
      | p :: ps => (c :: p) :: ps

/-- Join parts with single dashes; the shape `G1-…-Gk` that the vendor
advisory pattern describes. -/
def joinDash : List (List Char) → List Char
  | [] => []
  | [p] => p
  | p :: q :: rest => p ++ '-' :: joinDash (q :: rest)

/-- `RE_VENDOR_ADVISORY = ^[A-Z0-9]+(?:-[A-Z0-9]+)*-\d{4}-\d{2,}$` with
`re.IGNORECASE`, as a full-string test.  Since none of the character
classes of the pattern contain `'-'`, a match forces the dash-split of
the string to be: one or more nonempty alphanumeric groups, then an
exactly-4-digit group, then a final group of 2 or more digits; the
pattern holds iff that forced decomposition satisfies those tests. -/
def vendorAdvisory (cs : List Char) : Bool :=
  match (splitDash cs).reverse with
  | seq :: year :: groups =>
    !groups.isEmpty
      && groups.all (fun g => !g.isEmpty && g.all isAlnumCh)
      && year.length == 4 && allDigits year
      && decide (2 ≤ seq.length) && allDigits seq
  | _ => false

/-- The vendor-advisory shape as the specification words it: one or more
groups of letters/digits joined by dashes, then a dash, a 4-digit year,
a dash, and 2 or more digits.  (This is also the direct reading of the
pattern `^[A-Z0-9]+(?:-[A-Z0-9]+)*-\d{4}-\d{2,}$`.) -/
def VendorShape (cs : List Char) : Prop :=
  ∃ groups year seq,
    groups ≠ []
    ∧ cs = joinDash (groups ++ [year, seq])
    ∧ (∀ g ∈ groups, g ≠ [] ∧ ∀ c ∈ g, isAlnumCh c = true)
    ∧ year.length = 4 ∧ (∀ c ∈ year, c.isDigit = true)
    ∧ 2 ≤ seq.length ∧ (∀ c ∈ seq, c.isDigit = true)

/-- The substitution `re.sub(r'^\s*CVE[-\s_]*', '', s, re.IGNORECASE)`:
when the string is (optional whitespace then) a case-insensitive `CVE`,
drop the whitespace, the three letters and the maximal following run of
`[-\s_]`; otherwise the string is returned unchanged. -/
def stripCveLead (cs : List Char) : List Char :=
  let t := pyStripL cs
  if startsWithCI ['c', 'v', 'e'] t then (t.drop 3).dropWhile isSepCh else cs

/-- The substitution `re.sub(r'\s+', '', s)`: delete every whitespace char. -/
def delWhitespace (cs : List Char) : List Char :=
  cs.filter (fun c => !isPySpace c)

/-- `re.match(r'(\d{4})(\d{4,7})$', s)`: the whole string is 8 to 11
digits; group 1 is the first four, group 2 the rest (greedy `{4,7}`
against the end anchor leaves exactly the remainder).  Both anchored
matches are applied to the whitespace-free remainder, so the `$` anchor
is plain end-of-string (no trailing-newline case arises). -/
def yearSeqDirect (cs : List Char) : Option (List Char × List Char) :=
  if allDigits cs && decide (8 ≤ cs.length) && decide (cs.length ≤ 11)
  then some (cs.take 4, cs.drop 4) else none

/-- The `([0-9]{4,7})$` tail of the second normalization pattern: the
remaining string is 4 to 7 digits, captured whole. -/
def seqToEnd (cs : List Char) : Option (List Char) :=
  if allDigits cs && decide (4 ≤ cs.length) && decide (cs.length ≤ 7)
  then some cs else none

/-- The optional separator `[-_]?` after the year group: consume a
single leading dash/underscore when present. -/
def dropSep1 (cs : List Char) : List Char :=
  match cs with
  | c :: r => if c = '-' || c = '_' then r else cs
  | [] => cs

/-- `re.match(r'(\d{4})[-_]?([0-9]{4,7})$', s)`: four digits, an optional
single dash/underscore, then 4 to 7 digits up to the end.  (When the
optional separator is consumed but the tail fails, the regex engine's
fallback re-tries the tail at the separator itself, which is not a digit
and always fails, so consuming an available separator is forced.) -/
def yearSeqDashed (cs : List Char) : Option (List Char × List Char) :=
  let y := cs.take 4
  if y.length == 4 && allDigits y then
    (seqToEnd (dropSep1 (cs.drop 4))).map (fun q => (y, q))
  else none

/-- The two anchored year/sequence matches of `normalize_cve`, tried in
the order of the source. -/
def cveSplit (cs : List Char) : Option (List Char × List Char) :=
  match yearSeqDirect cs with
  | some r => some r
  | none => yearSeqDashed cs

/-- The specification's reading of the renderable remainders: 4 digits
followed directly, or after a single dash/underscore, by 4 to 7 digits. -/
def YearSeqSplit (s y q : List Char) : Prop :=
  (∀ c ∈ y, c.isDigit = true) ∧ y.length = 4
    ∧ (∀ c ∈ q, c.isDigit = true) ∧ 4 ≤ q.length ∧ q.length ≤ 7
    ∧ (s = y ++ q ∨ s = y ++ '-' :: q ∨ s = y ++ '_' :: q)

/-- `str.upper()` over ASCII. -/
def upperL (cs : List Char) : List Char :=
  cs.map Char.toUpper

/-- The remainder `normalize_cve` works on: `raw.strip()`, leading `CVE`
literal removed, all whitespace removed. -/
def cveRemainder (cs : List Char) : List Char :=
  delWhitespace (stripCveLead (pyStrip cs))

/-- `normalize_cve` on characters. -/
def normalizeCveL (cs : List Char) : List Char :=
  let s := cveRemainder cs
  match cveSplit s with
  | some (y, q) => ['C', 'V', 'E', '-'] ++ y ++ '-' :: q
  | none => upperL s

/-- `normalize_cve(raw)` of the script. -/
def normalize_cve (raw : String) : String :=
  String.mk (normalizeCveL raw.toList)

/-- The lowercased string ends in `.c` (so `a.lower().endswith('.c')`):
its last two characters exist and are `.` then `c`. -/
def endsWithDotC (cs : List Char) : Bool :=
  match (cs.map Char.toLower).reverse with
  | a :: b :: _ => a = 'c' && b = '.'
  | _ => false

/-- `is_aka_filtered` on characters.  `if not aka` is true exactly for the
empty string; the advisory pattern is applied to the stripped alias `a`
(which therefore carries no trailing newline, so the `$` anchor of
`RE_VENDOR_ADVISORY.match` is plain end-of-string here). -/
def isAkaFilteredL (aka : List Char) : Bool :=
  if aka.isEmpty then true
  else
    let a := pyStrip aka
    if endsWithDotC a then true
    else vendorAdvisory a

/-- `is_aka_filtered(aka)` of the script. -/
def is_aka_filtered (aka : String) : Bool :=
  isAkaFilteredL aka.toList

/-! The two-element literal-array pattern
`RE_REF = \[\s*(['"])(AKA|CVE)\1\s*,\s*(['"])(.*?)\3\s*\]`
(`IGNORECASE | DOTALL`). -/

/-- One match of `RE_REF`: whether group 2 was `AKA` (else `CVE`), the raw
group 4 text, and the text following the end of the match. -/
structure RefM where
  isAka : Bool
  val : List Char
  rest : List Char
  deriving DecidableEq

/-- The lazy tail `(.*?)\3\s*\]` of `RE_REF` after the opening quote of
group 4: find the shortest group such that the next character is the
closing quote `q` followed by whitespace and `]`.  When a candidate
closing quote is not followed by `\s*]`, the lazy group consumes it and
the search goes on. -/
def refTail (q : Char) : List Char → Option (List Char × List Char)
  | [] => none
  | c :: cs =>
    if c = q then
      match pyStripL cs with
      | ']' :: rest => some ([], rest)
      | _ => (refTail q cs).map (fun p => (c :: p.1, p.2))
    else (refTail q cs).map (fun p => (c :: p.1, p.2))

/-- Match `RE_REF` anchored at the start of `cs`.  Every component except
the lazy group is deterministic: each `\s*` run is followed by a
non-whitespace literal, the alternation `(AKA|CVE)` is decided by the
text, and the quotes are backreference-checked (`\1`) or free (`\3`). -/
def matchRef (cs : List Char) : Option RefM :=
  match cs with
  | '[' :: t0 =>
    match pyStripL t0 with
    | q1 :: t1 =>
      if isQuoteCh q1 then
        if startsWithCI ['a', 'k', 'a'] t1 || startsWithCI ['c', 'v', 'e'] t1 then
          match t1.drop 3 with
          | q2 :: t2 =>
            if q2 = q1 then
              match pyStripL t2 with
              | ',' :: t3 =>
                match pyStripL t3 with
                | q3 :: t4 =>
                  if isQuoteCh q3 then
                    (refTail q3 t4).map
                      (fun p => ⟨startsWithCI ['a', 'k', 'a'] t1, p.1, p.2⟩)
                  else none
                | [] => none
              | _ => none
            else none
          | [] => none
        else none
      else none
    | [] => none
  | _ => none

/-- `re.finditer` over a text: at each position try the anchored match
`step`; on success emit its value and resume after the match end, else
advance one character.  Fuel bounds the number of scan steps: since
every successful step of the matchers used below consumes at least one
character (proved in the `scanIter` fuel theorems), fuel equal to the
text length always reaches the end of the text. -/
def scanIter {α : Type} (step : List Char → Option (α × List Char)) :
    Nat → List Char → List α
  | 0, _ => []
  | _, [] => []
  | fuel + 1, c :: cs =>
    match step (c :: cs) with
    | some (a, rest) => a :: scanIter step fuel rest
    | none => scanIter step fuel cs

/-- One `RE_REF.finditer` step: the match and the position to resume at. -/
def refStep (cs : List Char) : Option (RefM × List Char) :=
  (matchRef cs).map (fun m => (m, m.rest))

/-- All `RE_REF` matches of a text. -/
def refIterT (cs : List Char) : List RefM :=
  scanIter refStep cs.length cs

/-! Comment salvage on the rest of a CVE line. -/

/-- `text[m.end():].find('\n')` slice: the rest of the current line. -/
def lineRest (cs : List Char) : List Char :=
  cs.takeWhile (fun c => c ≠ '\n')

/-- The suffix after the first `'#'`, when one occurs (`str.find('#')`). -/
def afterHash : List Char → Option (List Char)
  | [] => none
  | c :: cs => if c = '#' then some cs else afterHash cs

/-- The suffix after the first `"//"`, when one occurs (`str.find('//')`). -/
def afterSlashes : List Char → Option (List Char)
  | [] => none
  | [_] => none
  | a :: b :: cs =>
    if a = '/' && b = '/' then some cs else afterSlashes (b :: cs)

/-- From the (already stripped) comment text: the part before the first
`'-'` re-stripped when a dash occurs, else the whole comment; then
`rstrip(' ,;:')`. -/
def commentName (comment : List Char) : List Char :=
  let base :=
    if comment.contains '-' then pyStrip (comment.takeWhile (fun c => c ≠ '-'))
    else comment
  rstripPunct base

/-- Strip the text after the comment marker, build the candidate name and
keep it only when nonempty (the `if comment_name:` guard). -/
def processComment (t : List Char) : Option (List Char) :=
  let name := commentName (pyStrip t)
  if name.isEmpty then none else some name

/-- The comment-salvaged alias candidate of the rest of a CVE line: the
marker is the first `'#'` when any `'#'` occurs, else the first `"//"`. -/
def commentCandidate (rol : List Char) : Option (List Char) :=
  match afterHash rol with
  | some t => processComment t
  | none =>
    match afterSlashes rol with
    | some t => processComment t
    | none => none

/-- Pass 1 of `extract_from_text`, folding over the `RE_REF` matches in
order of appearance: an `AKA` match appends its stripped value to the
alias candidates; a `CVE` match appends the normalized value to the CVE
list and then possibly appends a comment-salvaged alias candidate from
the rest of its line. -/
def pass1 (ms : List RefM) : List (List Char) × List (List Char) :=
  ms.foldl
    (fun acc m =>
      let v := pyStrip m.val
      if m.isAka then (acc.1 ++ [v], acc.2)
      else
        let akas :=
          match commentCandidate (lineRest m.rest) with
          | some n => acc.1 ++ [n]
          | none => acc.1
        (akas, acc.2 ++ [normalizeCveL v]))
    ([], [])

/-! The key-to-array pattern
`aka_block_re = ['\"]AKA['\"]\s*(?:=>|:)\s*\[(.*?)\]` (`IGNORECASE | DOTALL`)
and the quoted strings `aka_string_re = ['\"]([^'\"]+)['\"]` inside a block. -/

/-- The association operator `(?:=>|:)` of `aka_block_re`: the
alternation tries the fat arrow first, then the colon. -/
def assocTail (cs : List Char) : Option (List Char) :=
  match cs with
  | '=' :: '>' :: r => some r
  | ':' :: r => some r
  | _ => none

/-- Match `aka_block_re` anchored at the start of `cs`, returning the
bracketed block (the lazy group: everything before the first `]`) and
the text after the match.  The opening and closing quotes around `AKA`
are independent. -/
def matchAkaBlock (cs : List Char) : Option (List Char × List Char) :=
  match cs with
  | q0 :: t0 =>
    if isQuoteCh q0 && startsWithCI ['a', 'k', 'a'] t0 then
      match t0.drop 3 with
      | q1 :: t1 =>
        if isQuoteCh q1 then
          match assocTail (pyStripL t1) with
          | some t2 =>
            match pyStripL t2 with
            | '[' :: t3 =>
              match t3.dropWhile (fun c => c ≠ ']') with
              | _ :: rest => some (t3.takeWhile (fun c => c ≠ ']'), rest)
              | [] => none
            | _ => none
          | none => none
        else none
      | [] => none
    else none
  | [] => none

/-- All `aka_block_re` blocks of a text. -/
def akaBlockIterT (cs : List Char) : List (List Char) :=
  scanIter matchAkaBlock cs.length cs

/-- `aka_string_re.findall` over a block: at a quote, the greedy
`[^'\"]+` takes the maximal run of non-quote characters, which must be
nonempty and followed by a quote; scanning resumes after the closing
quote. -/
def akaStrings : Nat → List Char → List (List Char)
  | 0, _ => []
  | _, [] => []
  | fuel + 1, c :: cs =>
    if isQuoteCh c then
      let run := cs.takeWhile (fun x => !isQuoteCh x)
      if run.isEmpty then akaStrings fuel cs
      else
        match cs.dropWhile (fun x => !isQuoteCh x) with
        | _ :: rest => run :: akaStrings fuel rest
        | [] => []
    else akaStrings fuel cs

/-- Pass 2 of `extract_from_text`: for every block, every quoted string,
stripped, appended when nonempty. -/
def pass2 (blocks : List (List Char)) : List (List Char) :=
  blocks.foldl
    (fun acc b =>
      acc ++ (akaStrings b.length b).filterMap
        (fun s => let sc := pyStrip s; if sc.isEmpty then none else some sc))
    []

/-! The generic token pattern
`RE_CVE_GENERIC = CVE[-\s_]*?(\d{4})[-\s_]?([0-9]{4,7})` (`IGNORECASE`). -/

/-- The greedy `([0-9]{4,7})` at the end of `RE_CVE_GENERIC`: at least 4
digits available; the group takes at most 7 of the maximal digit run. -/
def seqDigits (cs : List Char) : Option (List Char × List Char) :=
  let run := cs.takeWhile Char.isDigit
  if decide (4 ≤ run.length) then
    let q := run.take 7
    some (q, cs.drop q.length)
  else none

/-- The optional separator `[-\s_]?` after the year group of the generic
pattern: consume a single leading separator when present. -/
def dropSepG (cs : List Char) : List Char :=
  match cs with
  | c :: r => if isSepCh c then r else cs
  | [] => cs

/-- `(\d{4})[-\s_]?([0-9]{4,7})` anchored at `cs`: exactly four digits,
an optional single separator, then the digit group.  (As in
`yearSeqDashed`, declining an available separator cannot help: the digit
group would then start at the separator and fail.) -/
def cveAfterSeps (cs : List Char) : Option (List Char × List Char × List Char) :=
  let y := cs.take 4
  if y.length == 4 && allDigits y then
    (seqDigits (dropSepG (cs.drop 4))).map (fun p => (y, p.1, p.2))
  else none

/-- The lazy run `[-\s_]*?` before the year group: consume the fewest
separator characters that let the remainder of the pattern match. -/
def cveSeps : List Char → Option (List Char × List Char × List Char)
  | [] => none
  | c :: cs =>
    match cveAfterSeps (c :: cs) with
    | some r => some r
    | none => if isSepCh c then cveSeps cs else none

/-- Match `RE_CVE_GENERIC` anchored at `cs`: the literal `CVE`
(case-insensitive), then `cveSeps`.  Returns (year, sequence, rest). -/
def matchCveG (cs : List Char) : Option (List Char × List Char × List Char) :=
  if startsWithCI ['c', 'v', 'e'] cs then cveSeps (cs.drop 3) else none

/-- One `RE_CVE_GENERIC.finditer` step: the (year, sequence) groups and
the position to resume at. -/
def cveStep (cs : List Char) : Option ((List Char × List Char) × List Char) :=
  (matchCveG cs).map (fun t => ((t.1, t.2.1), t.2.2))

/-- All `RE_CVE_GENERIC` matches of a text. -/
def cveIterT (cs : List Char) : List (List Char × List Char) :=
  scanIter cveStep cs.length cs

/-- Pass 3 of `extract_from_text`: each generic token is rendered as
`CVE-<year>-<sequence>` and appended only when not already in the CVE
list (`if cand not in cves`). -/
def pass3 (cves : List (List Char)) : List (List Char × List Char) → List (List Char)
  | [] => cves
  | t :: ts =>
    let cand := ['C', 'V', 'E', '-'] ++ t.1 ++ '-' :: t.2
    pass3 (if cand ∈ cves then cves else cves ++ [cand]) ts

/-- The merged alias-candidate list of a text: pass 1 candidates
(two-element `AKA` values and comment-salvaged names, interleaved in
order of appearance) followed by pass 2 (key-to-array) candidates. -/
def mergedAkas (cs : List Char) : List (List Char) :=
  (pass1 (refIterT cs)).1 ++ pass2 (akaBlockIterT cs)

/-- The CVE list of a text: pass 1 literal-array CVEs (normalized, in
order, never deduplicated) extended by pass 3 generic tokens. -/
def allCves (cs : List Char) : List (List Char) :=
  pass3 (pass1 (refIterT cs)).2 (cveIterT cs)

/-- `extract_from_text(text, filepath)` of the script (the `filepath`
argument is unused by the source).  `aka_final` is the first candidate
that survives `is_aka_filtered`; the final `if not aka_final` guard of
the source also catches an empty surviving alias, but a survivor is
never empty since the empty string is filtered. -/
def extract_from_text (text : String) : List (String × String) :=
  let cs := text.toList
  let akas := mergedAkas cs
  let cves := allCves cs
  if akas.isEmpty then []
  else
    match akas.find? (fun a => !isAkaFilteredL a) with
    | none => []
    | some a => cves.map (fun c => (String.mk c, String.mk a))

/-- The alias the Filter/Selector picks for a text, when any survives. -/
def firstSurvivingAka (text : String) : Option (List Char) :=
  (mergedAkas text.toList).find? (fun a => !isAkaFilteredL a)

/-! The Walker and the Emitter.  A scan result is a
(file, cve, aka) triple. -/

/-- `scan_modules`: the tree walk and per-file reads are modelled by the
list of (path, decoded text) pairs the walk yields, in traversal order
(files whose read raises are simply absent from the list, as the source
skips them); each file's pairs are appended in order. -/
def scan_modules (files : List (String × String)) :
    List (String × String × String) :=
  files.foldl
    (fun acc f => acc ++ (extract_from_text f.2).map (fun p => (f.1, p.1, p.2)))
    []

/-- `aka.replace("'", "\\'")`: escape each single quote with a backslash. -/
def escAkaL (cs : List Char) : List Char :=
  cs.flatMap (fun c => if c = '\'' then ['\\', '\''] else [c])

/-- `escAkaL` on strings. -/
def escAka (s : String) : String :=
  String.mk (escAkaL s.toList)

/-- One generated map entry, `  '<cve>': '<escaped aka>',`. -/
def tsLine (cve aka : String) : String :=
  String.mk ([' ', ' ', '\''] ++ cve.toList ++ ['\'', ':', ' ', '\'']
    ++ aka.toList ++ ['\'', ','])

/-- The entry lines of `make_ts_map`: fold over the triples, keeping a
`seen` key set; a triple contributes iff its CVE is truthy (nonempty)
and not yet seen (`if cve and cve not in seen`), and the first triple
per CVE fixes the alias. -/
def tsEntries : List String → List (String × String × String) → List String
  | _, [] => []
  | seen, t :: rest =>
    if t.2.1 ≠ "" ∧ t.2.1 ∉ seen then
      tsLine t.2.1 (escAka t.2.2) :: tsEntries (t.2.1 :: seen) rest
    else tsEntries seen rest

/-- The two fixed lines opening the generated map. -/
def tsHeader : List String :=
  ["// generated from rapid7/metasploit-framework modules",
   "export const cveToNameMap: Record<string,string> = \x7b"]

/-- `make_ts_map(pairs)`: header, entries, closing line, newline-joined. -/
def make_ts_map (pairs : List (String × String × String)) : String :=
  String.intercalate "\n" (tsHeader ++ tsEntries [] pairs ++ ["\x7d;"])

/-- The CSV dedup loop: skip a triple whose CVE was already emitted
(`if cve in seen: continue`). -/
def csvDedupRows : List String → List (String × String × String) →
    List (String × String × String)
  | _, [] => []
  | seen, t :: rest =>
    if t.2.1 ∈ seen then csvDedupRows seen rest
    else t :: csvDedupRows (t.2.1 :: seen) rest

/-- The data rows CSV mode emits, depending on the `--dedup` flag. -/
def csvRows (dedup : Bool) (results : List (String × String × String)) :
    List (String × String × String) :=
  if dedup then csvDedupRows [] results else results

/-- The `writerow` calls of CSV mode: the header then one row of three
fields per retained triple (the `csv` module's serialization of a row is
left abstract, a row being its field list). -/
def csvWriteRows (dedup : Bool) (results : List (String × String × String)) :
    List (List String) :=
  ["file", "cve", "aka"] :: (csvRows dedup results).map (fun t => [t.1, t.2.1, t.2.2])

/-- The distinct values of a list, in first-appearance order (used to
state what the dedup loops emit). -/
def distinctFirst : List String → List String
  | [] => []
  | c :: rest => c :: distinctFirst (rest.filter (fun x => !(x == c)))
termination_by l => l.length
decreasing_by
  simp only [List.length_cons]
  exact Nat.lt_succ_of_le (List.length_filter_le _ _)

/-- The first triple of the list carrying a given CVE value. -/
def firstWithCve (r : List (String × String × String)) (c : String) :
    Option (String × String × String) :=
  r.find? (fun t => t.2.1 == c)

/-- What a run prints to stdout: nothing, the generated map, or CSV rows. -/
inductive Out where
  | silent : Out
  | tsMap : String → Out
  | csv : List (List String) → Out
  deriving DecidableEq

/-- The filesystem a run sees: whether the root path exists and is a
directory, and the readable files under it in traversal order. -/
structure FileSys where
  rootIsDir : Bool
  files : List (String × String)

/-- `main(argv)` after successful argument parsing, as exit status and
stdout: status 2 and no output when the root check fails; otherwise
status 0, with no output at all for an empty scan, else the `--ts` map
or the CSV rows. -/
def main_run (fs : FileSys) (ts dedup : Bool) : Nat × Out :=
  if !fs.rootIsDir then (2, Out.silent)
  else
    let results := scan_modules fs.files
    if results.isEmpty then (0, Out.silent)
    else if ts then (0, Out.tsMap (make_ts_map results))
    else (0, Out.csv (csvWriteRows dedup results))

/-! Concrete file texts used by the claims. -/

/-- The two-element alias literal of scenario A. -/
def litAka : String := "[ 'AKA', 'Heartbleed']"

/-- The two-element CVE literal of scenario A. -/
def litCve : String := "[ 'CVE', '2014-0160']"

/-- Scenario A, alias literal first. -/
def txtA1 : String := "[ 'AKA', 'Heartbleed']\n[ 'CVE', '2014-0160']"

/-- Scenario A, CVE literal first. -/
def txtA2 : String := "[ 'CVE', '2014-0160']\n[ 'AKA', 'Heartbleed']"

/-- Both scenario A literals, preceded by another alias literal. -/
def txtAextra : String :=
  "[ 'AKA', 'Other']\n[ 'AKA', 'Heartbleed']\n[ 'CVE', '2014-0160']"

/-- Scenario B: a vendor-advisory-shaped first candidate. -/
def txtB : String := "'AKA' => ['SA-CORE-2018-002', 'RealName']\n[ 'CVE', '2018-7600']"

/-- Scenario C: a comment-salvaged alias, no explicit AKA key. -/
def txtC : String :=
  "[ 'CVE', '2017-0143'], # EternalRomance/EternalSynergy - Type confusion"

/-- A comment-salvaged candidate and a key-to-array candidate together. -/
def txtMix : String := "[ 'CVE', '2017-0143'], # EternalBlue\n'AKA' => ['KeyArrayName']"

/-- A comment-salvaged candidate on a line preceding a two-element alias
literal. -/
def txtOrder : String := "[ 'CVE', '2018-1111'], # CommentName\n[ 'AKA', 'LitName']"

/-- The same CVE twice in the literal-array form. -/
def txtDup : String := "[ 'CVE', '2018-1111']\n[ 'CVE', '2018-1111']\n[ 'AKA', 'Nm']"

/-- Literal-array and generic CVE tokens with repetitions. -/
def txtGen : String :=
  "[ 'CVE', '2018-1111'], # x\nCVE 2018 1111 and CVE_2018_1112 and CVE-2018-1112"

/-- A literal CVE entry with an empty second element. -/
def txtEmptyCve : String := "[ 'CVE', '']\n[ 'AKA', 'Name']"

/-- `pat` occurs as a contiguous substring of the text. -/
def hasSub (pat : List Char) : List Char → Bool
  | [] => pat.isEmpty
  | c :: cs => pat.isPrefixOf (c :: cs) || hasSub pat cs

/-! Fuel adequacy of the finditer drivers: every successful match
consumes at least one character, so any fuel of at least the text
length computes the canonical scan used by the extractor. -/

theorem pyStripL_length_le (cs : List Char) : (pyStripL cs).length ≤ cs.length :=
  (List.dropWhile_sublist _).length_le

theorem refTail_rest_lt (q : Char) :
    ∀ (cs g r : List Char), refTail q cs = some (g, r) → r.length < cs.length := by
  intro cs
  induction cs with
  | nil => intro g r h; simp [refTail] at h
  | cons c cs ih =>
    intro g r h
    unfold refTail at h
    by_cases hc : c = q
    · rw [if_pos hc] at h
      split at h
      · rename_i rest heq
        have h2 := Option.some.inj h
        have hr : r = rest := (congrArg Prod.snd h2).symm
        subst hr
        have h1 : (pyStripL cs).length ≤ cs.length := pyStripL_length_le cs
        rw [heq] at h1
        simp only [List.length_cons] at h1 ⊢
        omega
      · cases ht : refTail q cs with
        | none => rw [ht] at h; simp at h
        | some p =>
          rw [ht] at h
          simp only [Option.map_some'] at h
          have h2 := Option.some.inj h
          have hr : r = p.2 := (congrArg Prod.snd h2).symm
          subst hr
          have := ih p.1 p.2 ht
          simp only [List.length_cons]
          omega
    · rw [if_neg hc] at h
      cases ht : refTail q cs with
      | none => rw [ht] at h; simp at h
      | some p =>
        rw [ht] at h
        simp only [Option.map_some'] at h
        have h2 := Option.some.inj h
        have hr : r = p.2 := (congrArg Prod.snd h2).symm
        subst hr
        have := ih p.1 p.2 ht
        simp only [List.length_cons]
        omega

theorem matchRefTailChain {b : Bool} {t0 t1 t2 t3 t4 : List Char}
    {q1 q2 q3 : Char} {m : RefM}
    (heq3 : pyStripL t0 = q1 :: t1) (heq2 : t1.drop 3 = q2 :: t2)
    (heq1 : pyStripL t2 = ',' :: t3) (heq0 : pyStripL t3 = q3 :: t4)
    (h : Option.map (fun p => RefM.mk b p.1 p.2) (refTail q3 t4) = some m) :
    m.rest.length < ('[' :: t0).length := by
  rw [Option.map_eq_some'] at h
  obtain ⟨p, hp, hm⟩ := h
  subst hm
  show p.2.length < ('[' :: t0).length
  have hlt := refTail_rest_lt q3 t4 p.1 p.2 hp
  have e3 := congrArg List.length heq3
  have e2 := congrArg List.length heq2
  have e1 := congrArg List.length heq1
  have e0 := congrArg List.length heq0
  have l0 := pyStripL_length_le t0
  have l2 := pyStripL_length_le t2
  have l3 := pyStripL_length_le t3
  simp only [List.length_cons, List.length_drop] at e3 e2 e1 e0 ⊢
  omega

theorem matchRef_rest_lt (cs : List Char) (m : RefM)
    (h : matchRef cs = some m) : m.rest.length < cs.length := by
  unfold matchRef at h
  split at h
  · split at h
    · split at h
      · split at h
        · split at h
          · split at h
            · split at h
              · split at h
                · split at h
                  · exact matchRefTailChain (by assumption) (by assumption)
                      (by assumption) (by assumption) h
                  · simp at h
                · simp at h
              · simp at h
            · simp at h
          · simp at h
        · simp at h
      · simp at h
    · simp at h
  · simp at h



theorem assocTail_rest_lt : ∀ (cs r : List Char), assocTail cs = some r →
    r.length < cs.length := by
  intro cs r h
  unfold assocTail at h
  split at h
  · obtain rfl := Option.some.inj h
    simp only [List.length_cons]
    omega
  · obtain rfl := Option.some.inj h
    simp only [List.length_cons]
    omega
  · simp at h

theorem matchAkaBlockChain {t0 t1 t2 t3 rest : List Char} {q0 q1 x : Char}
    {m : List Char × List Char}
    (heqA : t0.drop 3 = q1 :: t1) (hAssoc : assocTail (pyStripL t1) = some t2)
    (heqB : pyStripL t2 = '[' :: t3)
    (heqC : t3.dropWhile (fun c => c ≠ ']') = x :: rest)
    (h : some (t3.takeWhile (fun c => c ≠ ']'), rest) = some m) :
    m.2.length < (q0 :: t0).length := by
  obtain rfl := Option.some.inj h
  show rest.length < (q0 :: t0).length
  have hA := assocTail_rest_lt _ _ hAssoc
  have eA := congrArg List.length heqA
  have eB := congrArg List.length heqB
  have eC := congrArg List.length heqC
  have l1 := pyStripL_length_le t1
  have l2 := pyStripL_length_le t2
  have l3 : (t3.dropWhile (fun c => c ≠ ']')).length ≤ t3.length :=
    (List.dropWhile_sublist _).length_le
  simp only [List.length_cons, List.length_drop] at eA eB eC ⊢
  omega

theorem matchAkaBlock_rest_lt (cs : List Char) (m : List Char × List Char)
    (h : matchAkaBlock cs = some m) : m.2.length < cs.length := by
  unfold matchAkaBlock at h
  split at h
  · split at h
    · split at h
      · split at h
        · split at h
          · split at h
            · split at h
              · exact matchAkaBlockChain (by assumption) (by assumption)
                  (by assumption) (by assumption) h
              · simp at h
            · simp at h
          · simp at h
        · simp at h
      · simp at h
    · simp at h
  · simp at h



theorem seqDigits_rest_lt (cs : List Char) (p : List Char × List Char)
    (h : seqDigits cs = some p) : p.2.length < cs.length := by
  simp only [seqDigits] at h
  split at h
  · rename_i hc
    obtain rfl := Option.some.inj h
    simp only [decide_eq_true_eq] at hc
    have hrun : (cs.takeWhile Char.isDigit).length ≤ cs.length :=
      (List.takeWhile_sublist _).length_le
    show (cs.drop ((cs.takeWhile Char.isDigit).take 7).length).length < cs.length
    rw [List.length_drop, List.length_take]
    omega
  · simp at h

theorem dropSepG_length_le (cs : List Char) : (dropSepG cs).length ≤ cs.length := by
  cases cs with
  | nil => exact Nat.le_refl _
  | cons c r =>
    simp only [dropSepG]
    split
    · simp only [List.length_cons]
      omega
    · exact Nat.le_refl _

theorem cveAfterSeps_rest_lt (cs : List Char) (t : List Char × List Char × List Char)
    (h : cveAfterSeps cs = some t) : t.2.2.length < cs.length := by
  simp only [cveAfterSeps] at h
  split at h
  · rename_i hc
    cases hs : seqDigits (dropSepG (cs.drop 4)) with
    | none => rw [hs] at h; simp at h
    | some p =>
      rw [hs] at h
      simp only [Option.map_some'] at h
      obtain rfl := Option.some.inj h
      show p.2.length < cs.length
      have hlt := seqDigits_rest_lt _ p hs
      have hds := dropSepG_length_le (cs.drop 4)
      simp only [Bool.and_eq_true, beq_iff_eq] at hc
      have h4 := hc.1
      rw [List.length_take] at h4
      rw [List.length_drop] at hds
      omega
  · simp at h

theorem cveSeps_rest_lt : ∀ (cs : List Char) (t : List Char × List Char × List Char),
    cveSeps cs = some t → t.2.2.length < cs.length := by
  intro cs
  induction cs with
  | nil => intro t h; simp [cveSeps] at h
  | cons c cs2 ih =>
    intro t h
    unfold cveSeps at h
    split at h
    · rename_i r heq
      obtain rfl := Option.some.inj h
      exact cveAfterSeps_rest_lt _ _ heq
    · split at h
      · have := ih t h
        simp only [List.length_cons]
        omega
      · simp at h

theorem matchCveG_rest_lt (cs : List Char) (t : List Char × List Char × List Char)
    (h : matchCveG cs = some t) : t.2.2.length < cs.length := by
  unfold matchCveG at h
  split at h
  · have hlt := cveSeps_rest_lt (cs.drop 3) t h
    have hd : (cs.drop 3).length ≤ cs.length := by
      rw [List.length_drop]
      omega
    omega
  · simp at h

theorem refStep_rest_lt (cs : List Char) (a : RefM) (r : List Char)
    (h : refStep cs = some (a, r)) : r.length < cs.length := by
  unfold refStep at h
  rw [Option.map_eq_some'] at h
  obtain ⟨m, hm, he⟩ := h
  have hr : r = m.rest := (congrArg Prod.snd he).symm
  subst hr
  exact matchRef_rest_lt cs m hm

theorem cveStep_rest_lt (cs : List Char) (a : List Char × List Char) (r : List Char)
    (h : cveStep cs = some (a, r)) : r.length < cs.length := by
  unfold cveStep at h
  rw [Option.map_eq_some'] at h
  obtain ⟨t, ht, he⟩ := h
  have hr : r = t.2.2 := (congrArg Prod.snd he).symm
  subst hr
  exact matchCveG_rest_lt cs t ht

theorem scanIter_fuel {α : Type} (step : List Char → Option (α × List Char))
    (hstep : ∀ cs a r, step cs = some (a, r) → r.length < cs.length) :
    ∀ (n : Nat) (cs : List Char), cs.length ≤ n → ∀ fuel, cs.length ≤ fuel →
      scanIter step fuel cs = scanIter step cs.length cs := by
  intro n
  induction n with
  | zero =>
    intro cs hcs fuel _
    have hnil : cs = [] := List.eq_nil_of_length_eq_zero (Nat.le_zero.mp hcs)
    subst hnil
    cases fuel <;> rfl
  | succ n ih =>
    intro cs hcs fuel hfuel
    cases cs with
    | nil => cases fuel <;> rfl
    | cons c cs2 =>
      simp only [List.length_cons] at hcs hfuel ⊢
      cases fuel with
      | zero => omega
      | succ f =>
        simp only [scanIter]
        cases hm : step (c :: cs2) with
        | none =>
          exact (ih cs2 (by omega) f (by omega)).trans
            (ih cs2 (by omega) cs2.length (by omega)).symm
        | some p =>
          have hlt := hstep (c :: cs2) p.1 p.2 hm
          simp only [List.length_cons] at hlt
          show p.1 :: scanIter step f p.2 = p.1 :: scanIter step cs2.length p.2
          rw [ih p.2 (by omega) f (by omega), ih p.2 (by omega) cs2.length (by omega)]

theorem refIterT_fuel (cs : List Char) (fuel : Nat) (h : cs.length ≤ fuel) :
    scanIter refStep fuel cs = refIterT cs :=
  scanIter_fuel refStep refStep_rest_lt fuel cs h fuel h

theorem akaBlockIterT_fuel (cs : List Char) (fuel : Nat) (h : cs.length ≤ fuel) :
    scanIter matchAkaBlock fuel cs = akaBlockIterT cs :=
  scanIter_fuel matchAkaBlock (fun cs2 a r h2 => matchAkaBlock_rest_lt cs2 (a, r) h2)
    fuel cs h fuel h

theorem cveIterT_fuel (cs : List Char) (fuel : Nat) (h : cs.length ≤ fuel) :
    scanIter cveStep fuel cs = cveIterT cs :=
  scanIter_fuel cveStep cveStep_rest_lt fuel cs h fuel h

theorem akaStrings_fuel :
    ∀ (n : Nat) (cs : List Char), cs.length ≤ n → ∀ fuel, cs.length ≤ fuel →
      akaStrings fuel cs = akaStrings cs.length cs := by
  intro n
  induction n with
  | zero =>
    intro cs hcs fuel _
    have hnil : cs = [] := List.eq_nil_of_length_eq_zero (Nat.le_zero.mp hcs)
    subst hnil
    cases fuel <;> rfl
  | succ n ih =>
    intro cs hcs fuel hfuel
    cases cs with
    | nil => cases fuel <;> rfl
    | cons c cs2 =>
      simp only [List.length_cons] at hcs hfuel ⊢
      cases fuel with
      | zero => omega
      | succ f =>
        simp only [akaStrings]
        by_cases hq : isQuoteCh c = true
        · rw [if_pos hq, if_pos hq]
          by_cases hrun : (cs2.takeWhile (fun x => !isQuoteCh x)).isEmpty = true
          · rw [if_pos hrun, if_pos hrun]
            exact (ih cs2 (by omega) f (by omega)).trans
              (ih cs2 (by omega) cs2.length (by omega)).symm
          · rw [if_neg hrun, if_neg hrun]
            cases hdw : cs2.dropWhile (fun x => !isQuoteCh x) with
            | nil => rfl
            | cons y rest =>
              have hdl : (cs2.dropWhile (fun x => !isQuoteCh x)).length ≤ cs2.length :=
                (List.dropWhile_sublist _).length_le
              rw [hdw] at hdl
              simp only [List.length_cons] at hdl
              show (cs2.takeWhile (fun x => !isQuoteCh x)) :: akaStrings f rest
                  = (cs2.takeWhile (fun x => !isQuoteCh x)) :: akaStrings cs2.length rest
              rw [ih rest (by omega) f (by omega), ih rest (by omega) cs2.length (by omega)]
        · rw [if_neg hq, if_neg hq]
          exact (ih cs2 (by omega) f (by omega)).trans
            (ih cs2 (by omega) cs2.length (by omega)).symm

/-! Claim theorems. -/

/-- C1: for every file text, either `extract_from_text` contributes zero
rows, or every row it contributes carries the same single non-empty
alias, namely the first candidate of the merged alias-candidate list
that is not filtered; when every candidate is filtered or none exists,
the file contributes zero rows no matter how many CVE tokens it holds. -/
theorem c1_rows_share_first_surviving_alias (text : String) :
    (firstSurvivingAka text = none → extract_from_text text = [])
    ∧ ∀ a, firstSurvivingAka text = some a →
        a ≠ [] ∧ ∀ p ∈ extract_from_text text, p.2 = String.mk a := by
  constructor
  · intro h
    unfold firstSurvivingAka at h
    simp only [extract_from_text, h]
    split <;> rfl
  · intro a ha
    unfold firstSurvivingAka at ha
    have hfa := List.find?_some ha
    have hane : a ≠ [] := by
      intro hnil
      rw [hnil] at hfa
      simp [isAkaFilteredL] at hfa
    refine ⟨hane, ?_⟩
    intro p hp
    have hne : (mergedAkas text.toList).isEmpty = false := by
      cases hm : mergedAkas text.toList with
      | nil => rw [hm] at ha; simp at ha
      | cons x xs => rfl
    simp only [extract_from_text, hne, ha] at hp
    simp only [Bool.false_eq_true, if_false] at hp
    obtain ⟨c, _, rfl⟩ := List.mem_map.mp hp
    rfl

/-- When some element of the left list satisfies the predicate, `find?`
over an append is decided in the left list. -/
theorem findFirstInLeft {α : Type} {p : α → Bool} {l1 l2 : List α}
    (h : ∃ a ∈ l1, p a = true) : (l1 ++ l2).find? p = l1.find? p := by
  induction l1 with
  | nil =>
    obtain ⟨a, ha, _⟩ := h
    exact absurd ha (List.not_mem_nil a)
  | cons x xs ih =>
    by_cases hx : p x = true
    · rw [List.cons_append, List.find?_cons_of_pos _ hx, List.find?_cons_of_pos _ hx]
    · rw [List.cons_append, List.find?_cons_of_neg _ hx, List.find?_cons_of_neg _ hx]
      apply ih
      obtain ⟨a, ha, hpa⟩ := h
      rcases List.mem_cons.mp ha with rfl | h2
      · exact absurd hpa hx
      · exact ⟨a, h2, hpa⟩

/-- C2 counterexample: in `txtMix` both an unfiltered key-to-array alias
(`KeyArrayName`) and an unfiltered comment-salvaged alias
(`EternalBlue`) occur, yet the comment-salvaged alias is selected, and
the merged candidate list holds the comment-salvaged candidate first —
against the claimed form priority (key-to-array before comment-salvaged);
and in `txtOrder` a comment-salvaged candidate precedes a two-element
literal candidate in the merged list, against the claimed grouping with
all two-element candidates first. -/
theorem c2_counterexample :
    (pass1 (refIterT txtMix.toList)).1 = ["EternalBlue".toList]
    ∧ pass2 (akaBlockIterT txtMix.toList) = ["KeyArrayName".toList]
    ∧ mergedAkas txtMix.toList = ["EternalBlue".toList, "KeyArrayName".toList]
    ∧ isAkaFilteredL "KeyArrayName".toList = false
    ∧ isAkaFilteredL "EternalBlue".toList = false
    ∧ extract_from_text txtMix = [("CVE-2017-0143", "EternalBlue")]
    ∧ mergedAkas txtOrder.toList = ["CommentName".toList, "LitName".toList] := by
  decide

/-- C2 (amended): the merged alias-candidate list is the pass 1
candidates (two-element `AKA` values and comment-salvaged names,
interleaved in order of appearance) followed by all key-to-array
candidates; hence whenever some pass 1 candidate survives filtering, the
selected alias is the first surviving pass 1 candidate — in particular a
surviving comment-salvaged alias is selected over every key-to-array
alias. -/
theorem c2_pass1_beats_keyarray (text : String)
    (h : ∃ a ∈ (pass1 (refIterT text.toList)).1, isAkaFilteredL a = false) :
    mergedAkas text.toList
      = (pass1 (refIterT text.toList)).1 ++ pass2 (akaBlockIterT text.toList)
    ∧ firstSurvivingAka text
      = (pass1 (refIterT text.toList)).1.find? (fun a => !isAkaFilteredL a) := by
  refine ⟨rfl, ?_⟩
  unfold firstSurvivingAka mergedAkas
  obtain ⟨a, ha, hf⟩ := h
  exact findFirstInLeft ⟨a, ha, by simp [hf]⟩

/-- C2 witness: the amended statement at `txtMix`. -/
theorem c2_pass1_beats_keyarray_witness :
    mergedAkas txtMix.toList
      = (pass1 (refIterT txtMix.toList)).1 ++ pass2 (akaBlockIterT txtMix.toList)
    ∧ firstSurvivingAka txtMix
      = (pass1 (refIterT txtMix.toList)).1.find? (fun a => !isAkaFilteredL a) :=
  c2_pass1_beats_keyarray txtMix ⟨"EternalBlue".toList, by decide, by decide⟩

/-- A dash-split is never the empty list of parts. -/
theorem splitDash_ne_nil (cs : List Char) : splitDash cs ≠ [] := by
  cases cs with
  | nil => simp [splitDash]
  | cons c cs =>
    simp only [splitDash]
    split
    · simp
    · split <;> simp

/-- Joining the dash-split restores the string. -/
theorem joinDash_splitDash (cs : List Char) : joinDash (splitDash cs) = cs := by
  induction cs with
  | nil => rfl
  | cons c cs ih =>
    simp only [splitDash]
    by_cases hc : c = '-'
    · subst hc
      rw [if_pos rfl]
      cases hr : splitDash cs with
      | nil => exact absurd hr (splitDash_ne_nil cs)
      | cons q rest =>
        rw [hr] at ih
        simpa [joinDash] using ih
    · rw [if_neg hc]
      cases hr : splitDash cs with
      | nil => exact absurd hr (splitDash_ne_nil cs)
      | cons p ps =>
        rw [hr] at ih
        cases ps with
        | nil => simpa [joinDash] using ih
        | cons q rest =>
          simp only [joinDash] at ih ⊢
          rw [List.cons_append, ih]

/-- No part of a dash-split contains a dash. -/
theorem splitDash_no_dash_mem (cs : List Char) :
    ∀ p ∈ splitDash cs, '-' ∉ p := by
  induction cs with
  | nil =>
    intro p hp
    simp [splitDash] at hp
    simp [hp]
  | cons c cs ih =>
    intro p hp
    simp only [splitDash] at hp
    by_cases hc : c = '-'
    · rw [if_pos hc] at hp
      rcases List.mem_cons.mp hp with rfl | hp2
      · simp
      · exact ih p hp2
    · rw [if_neg hc] at hp
      cases hr : splitDash cs with
      | nil => exact absurd hr (splitDash_ne_nil cs)
      | cons q ps =>
        rw [hr] at hp
        rcases List.mem_cons.mp hp with rfl | hp2
        · intro hm
          rcases List.mem_cons.mp hm with h1 | h2
          · exact hc h1.symm
          · exact ih q (hr ▸ List.mem_cons_self q ps) h2
        · exact ih p (hr ▸ List.mem_cons_of_mem q hp2)

/-- Splitting a dash-free part followed by a dash peels off that part. -/
theorem splitDash_append_dash {p : List Char} (t : List Char) (hp : '-' ∉ p) :
    splitDash (p ++ '-' :: t) = p :: splitDash t := by
  induction p with
  | nil => simp [splitDash]
  | cons a q ih =>
    have ha : a ≠ '-' := fun h => hp (h ▸ List.mem_cons_self a q)
    have hq : '-' ∉ q := fun h => hp (List.mem_cons_of_mem a h)
    simp [splitDash, ih hq, ha]

/-- Splitting a dash-free string yields that single part. -/
theorem splitDash_of_no_dash {p : List Char} (hp : '-' ∉ p) :
    splitDash p = [p] := by
  induction p with
  | nil => rfl
  | cons a q ih =>
    have ha : a ≠ '-' := fun h => hp (h ▸ List.mem_cons_self a q)
    have hq : '-' ∉ q := fun h => hp (List.mem_cons_of_mem a h)
    simp only [splitDash, ih hq, if_neg ha]

/-- Splitting a dash-join of nonempty, dash-free parts restores them. -/
theorem splitDash_joinDash : ∀ (parts : List (List Char)), parts ≠ [] →
    (∀ p ∈ parts, '-' ∉ p) → splitDash (joinDash parts) = parts := by
  intro parts
  induction parts with
  | nil => intro h; exact absurd rfl h
  | cons p rest ih =>
    intro _ hnd
    cases rest with
    | nil =>
      simp only [joinDash]
      exact splitDash_of_no_dash (hnd p (List.mem_cons_self p []))
    | cons q rest2 =>
      simp only [joinDash]
      rw [splitDash_append_dash _ (hnd p (List.mem_cons_self p _))]
      rw [ih (by simp) (fun x hx => hnd x (List.mem_cons_of_mem p hx))]

/-- `vendorAdvisory` decides exactly the specification's vendor-advisory
shape: since no character class of the pattern contains a dash, a match
is precisely a decomposition into dash-joined groups, year and sequence. -/
theorem vendorAdvisory_iff (cs : List Char) :
    vendorAdvisory cs = true ↔ VendorShape cs := by
  constructor
  · intro h
    unfold vendorAdvisory at h
    split at h
    case _ seq year groups heq =>
      simp only [Bool.and_eq_true, Bool.not_eq_true', List.isEmpty_eq_false,
        beq_iff_eq, decide_eq_true_eq, List.all_eq_true, allDigits] at h
      obtain ⟨⟨⟨⟨⟨hg, hga⟩, hy4⟩, hyd⟩, hs2⟩, hsd⟩ := h
      have hsplit : splitDash cs = groups.reverse ++ [year, seq] := by
        have h2 := congrArg List.reverse heq
        simpa using h2
      refine ⟨groups.reverse, year, seq, by simp [hg], ?_, ?_, hy4, hyd, hs2, hsd⟩
      · rw [← joinDash_splitDash cs, hsplit]
      · intro g hgm
        have hgm2 : g ∈ groups := List.mem_reverse.mp hgm
        have := hga g hgm2
        simp only [Bool.and_eq_true, Bool.not_eq_true', List.isEmpty_eq_false,
          List.all_eq_true] at this
        exact this
    case _ => exact absurd h (by simp)
  · rintro ⟨groups, year, seq, hg, hcs, hga, hy4, hyd, hs2, hsd⟩
    have hyear : '-' ∉ year := by
      intro hm
      exact absurd (hyd '-' hm) (by decide)
    have hseq : '-' ∉ seq := by
      intro hm
      exact absurd (hsd '-' hm) (by decide)
    have hparts : ∀ p ∈ groups ++ [year, seq], '-' ∉ p := by
      intro p hp
      rcases List.mem_append.mp hp with hp | hp
      · obtain ⟨_, hal⟩ := hga p hp
        intro hm
        exact absurd (hal '-' hm) (by decide)
      · rcases List.mem_cons.mp hp with rfl | hp2
        · exact hyear
        · rcases List.mem_cons.mp hp2 with rfl | hp3
          · exact hseq
          · exact absurd hp3 (List.not_mem_nil p)
    have hsplit : splitDash cs = groups ++ [year, seq] :=
      hcs ▸ splitDash_joinDash _ (by simp) hparts
    unfold vendorAdvisory
    rw [hsplit]
    have hrev : (groups ++ [year, seq]).reverse = seq :: year :: groups.reverse := by
      simp
    rw [hrev]
    simp only [Bool.and_eq_true, Bool.not_eq_true', List.isEmpty_eq_false,
      beq_iff_eq, decide_eq_true_eq, List.all_eq_true, allDigits]
    refine ⟨⟨⟨⟨⟨by simp [hg], ?_⟩, hy4⟩, hyd⟩, hs2⟩, hsd⟩
    intro g hgm
    obtain ⟨h1, h2⟩ := hga g (List.mem_reverse.mp hgm)
    exact ⟨h1, h2⟩

/-- The `.c`-suffix test holds exactly when the lowercased characters
end with `.` then `c`. -/
theorem endsWithDotC_iff (cs : List Char) :
    endsWithDotC cs = true ↔ ∃ t, cs.map Char.toLower = t ++ ['.', 'c'] := by
  unfold endsWithDotC
  constructor
  · intro h
    split at h
    case _ a b rest heq =>
      simp only [Bool.and_eq_true, decide_eq_true_eq] at h
      obtain ⟨rfl, rfl⟩ := h
      refine ⟨rest.reverse, ?_⟩
      have h2 := congrArg List.reverse heq
      simpa using h2
    case _ => exact absurd h (by simp)
  · rintro ⟨t, ht⟩
    have hrev : (cs.map Char.toLower).reverse = 'c' :: '.' :: t.reverse := by
      rw [ht]; simp
    rw [hrev]
    simp

/-- C3 counterexample: the claim says an all-whitespace alias is
rejected, but `is_aka_filtered` accepts the one-space alias (the
source's emptiness test is Python truthiness, which only catches `""`). -/
theorem c3_counterexample : is_aka_filtered " " = false := by decide

/-- C3 (amended): `is_aka_filtered` rejects an alias exactly when it is
empty, or its stripped lowercase form ends with `.c`, or its stripped
form fully matches the vendor-advisory shape; consequently for a file
containing `'AKA' => ['SA-CORE-2018-002', 'RealName']` and a CVE
literal, the first candidate is rejected and `RealName` is selected. -/
theorem c3_filter_characterization :
    (∀ aka : String, is_aka_filtered aka = true ↔
      (aka = "" ∨ (∃ t, (pyStrip aka.toList).map Char.toLower = t ++ ['.', 'c'])
        ∨ VendorShape (pyStrip aka.toList)))
    ∧ is_aka_filtered "SA-CORE-2018-002" = true
    ∧ extract_from_text txtB = [("CVE-2018-7600", "RealName")] := by
  refine ⟨?_, by decide, by decide⟩
  intro aka
  obtain ⟨data⟩ := aka
  show isAkaFilteredL data = true ↔ _
  unfold isAkaFilteredL
  by_cases he : data.isEmpty = true
  · have hd : data = [] := by simpa using he
    subst hd
    simp
  · have hne2 : ¬ (String.mk data = "") := by
      intro h
      have h2 := congrArg String.data h
      simp at h2
      rw [h2] at he
      exact he rfl
    rw [if_neg he]
    by_cases hd : endsWithDotC (pyStrip data) = true
    · rw [if_pos hd]
      constructor
      · intro _
        exact Or.inr (Or.inl ((endsWithDotC_iff _).mp hd))
      · intro _
        rfl
    · rw [if_neg hd]
      rw [vendorAdvisory_iff]
      constructor
      · exact fun h => Or.inr (Or.inr h)
      · rintro (h | h | h)
        · exact absurd h hne2
        · exact absurd ((endsWithDotC_iff _).mpr h) hd
        · exact h

/-- The year/sequence matcher of `normalize_cve` succeeds exactly on the
specification's decompositions, and returns that decomposition. -/
theorem cveSplit_iff_yearSeqSplit (s y q : List Char) :
    cveSplit s = some (y, q) ↔ YearSeqSplit s y q := by
  constructor
  · intro h
    unfold cveSplit at h
    cases hd : yearSeqDirect s with
    | some r =>
      rw [hd] at h
      have hr : r = (y, q) := by injection h
      subst hr
      unfold yearSeqDirect at hd
      split at hd
      case isTrue hcond =>
        have hyq := Option.some.inj hd
        have hy : s.take 4 = y := congrArg Prod.fst hyq
        have hq : s.drop 4 = q := congrArg Prod.snd hyq
        simp only [Bool.and_eq_true, decide_eq_true_eq] at hcond
        obtain ⟨⟨hall, h8⟩, h11⟩ := hcond
        unfold allDigits at hall
        have hallm := List.all_eq_true.mp hall
        subst hy
        subst hq
        refine ⟨fun c hc => hallm c (List.mem_of_mem_take hc), ?_,
          fun c hc => hallm c (List.mem_of_mem_drop hc), ?_, ?_,
          Or.inl (List.take_append_drop 4 s).symm⟩
        · rw [List.length_take]; omega
        · rw [List.length_drop]; omega
        · rw [List.length_drop]; omega
      case isFalse => simp at hd
    | none =>
      rw [hd] at h
      simp only [yearSeqDashed] at h
      split at h
      case isTrue hcond =>
        simp only [Bool.and_eq_true, beq_iff_eq] at hcond
        obtain ⟨hlen4, hdig⟩ := hcond
        unfold allDigits at hdig
        have hdigm := List.all_eq_true.mp hdig
        cases ho : seqToEnd (dropSep1 (s.drop 4)) with
        | none => rw [ho] at h; simp at h
        | some q2 =>
          rw [ho] at h
          simp only [Option.map_some'] at h
          have hyq := Option.some.inj h
          have hy : s.take 4 = y := congrArg Prod.fst hyq
          have hq2 : q2 = q := congrArg Prod.snd hyq
          subst hq2
          unfold seqToEnd at ho
          split at ho
          case isTrue hc2 =>
            have hq2 : dropSep1 (s.drop 4) = q2 := Option.some.inj ho
            rw [hq2] at hc2
            simp only [Bool.and_eq_true, decide_eq_true_eq] at hc2
            obtain ⟨⟨hq2d, hq2len⟩, hq2len7⟩ := hc2
            unfold allDigits at hq2d
            have hq2dm := List.all_eq_true.mp hq2d
            have hs : s = s.take 4 ++ s.drop 4 := (List.take_append_drop 4 s).symm
            refine ⟨?_, ?_, hq2dm, hq2len, hq2len7, ?_⟩
            · intro c hc
              rw [← hy] at hc
              exact hdigm c hc
            · rw [← hy]; exact hlen4
            · cases hm : s.drop 4 with
              | nil =>
                rw [hm] at hq2
                simp [dropSep1] at hq2
                subst hq2
                simp at hq2len
              | cons c r =>
                rw [hm] at hq2
                by_cases hsep : (c = '-' || c = '_') = true
                · simp only [dropSep1, if_pos hsep] at hq2
                  subst hq2
                  have hsep2 : c = '-' ∨ c = '_' := by simpa using hsep
                  rcases hsep2 with hs1 | hs1
                  · exact Or.inr (Or.inl (by rw [hs, hm, hy, hs1]))
                  · exact Or.inr (Or.inr (by rw [hs, hm, hy, hs1]))
                · simp only [dropSep1, if_neg hsep] at hq2
                  subst hq2
                  exact Or.inl (by rw [hs, hm, hy])
          case isFalse => simp at ho
      case isFalse => simp at h
  · rintro ⟨hyd, hy4, hqd, hq4, hq7, hcase⟩
    have hydig : allDigits y = true := List.all_eq_true.mpr hyd
    have hqdig : allDigits q = true := List.all_eq_true.mpr hqd
    rcases hcase with rfl | rfl | rfl
    · have hcond : (allDigits (y ++ q) && decide (8 ≤ (y ++ q).length)
          && decide ((y ++ q).length ≤ 11)) = true := by
        simp only [Bool.and_eq_true, decide_eq_true_eq]
        refine ⟨⟨?_, ?_⟩, ?_⟩
        · unfold allDigits at *
          simp [List.all_append, hydig, hqdig]
        · rw [List.length_append]; omega
        · rw [List.length_append]; omega
      unfold cveSplit yearSeqDirect
      rw [if_pos hcond, List.take_left' hy4, List.drop_left' hy4]
    · have hall : allDigits (y ++ '-' :: q) = false := by
        unfold allDigits
        simp [List.all_append]
      have hdir : yearSeqDirect (y ++ '-' :: q) = none := by
        unfold yearSeqDirect
        rw [hall]
        simp
      simp only [cveSplit, hdir]
      simp only [yearSeqDashed]
      rw [List.take_left' hy4, List.drop_left' hy4]
      have hc2 : ((y.length == 4) && allDigits y) = true := by
        simp [hy4, hydig]
      rw [if_pos hc2]
      have hds : dropSep1 ('-' :: q) = q := by simp [dropSep1]
      rw [hds]
      unfold seqToEnd
      have hc3 : (allDigits q && decide (4 ≤ q.length) && decide (q.length ≤ 7)) = true := by
        simp [hqdig, hq4, hq7]
      rw [if_pos hc3]
      rfl
    · have hall : allDigits (y ++ '_' :: q) = false := by
        unfold allDigits
        simp [List.all_append]
      have hdir : yearSeqDirect (y ++ '_' :: q) = none := by
        unfold yearSeqDirect
        rw [hall]
        simp
      simp only [cveSplit, hdir]
      simp only [yearSeqDashed]
      rw [List.take_left' hy4, List.drop_left' hy4]
      have hc2 : ((y.length == 4) && allDigits y) = true := by
        simp [hy4, hydig]
      rw [if_pos hc2]
      have hds : dropSep1 ('_' :: q) = q := by simp [dropSep1]
      rw [hds]
      unfold seqToEnd
      have hc3 : (allDigits q && decide (4 ≤ q.length) && decide (q.length ≤ 7)) = true := by
        simp [hqdig, hq4, hq7]
      rw [if_pos hc3]
      rfl

/-- C5: `normalize_cve` is total by construction; the remainder (leading
`CVE` literal and all whitespace stripped) is rendered as
`CVE-<year>-<sequence>` exactly when it decomposes as 4 digits followed
directly or after one dash/underscore by 4-7 digits, and is otherwise
returned uppercased unchanged; the three round-trip inputs agree. -/
theorem c5_normalize_cve :
    (∀ s y q, cveSplit s = some (y, q) ↔ YearSeqSplit s y q)
    ∧ (∀ raw : String, ∀ y q, cveSplit (cveRemainder raw.toList) = some (y, q) →
        normalize_cve raw = String.mk (['C', 'V', 'E', '-'] ++ y ++ '-' :: q))
    ∧ (∀ raw : String, cveSplit (cveRemainder raw.toList) = none →
        normalize_cve raw = String.mk (upperL (cveRemainder raw.toList)))
    ∧ normalize_cve "2018-1111" = "CVE-2018-1111"
    ∧ normalize_cve "20181111" = "CVE-2018-1111"
    ∧ normalize_cve "CVE-2018-1111" = "CVE-2018-1111" := by
  refine ⟨cveSplit_iff_yearSeqSplit, ?_, ?_, by decide, by decide, by decide⟩
  · intro raw y q h
    simp only [normalize_cve, normalizeCveL, h]
  · intro raw h
    simp only [normalize_cve, normalizeCveL, h]

/-- When no `#` occurs in the prefix, the first `#` found is the
explicit one. -/
theorem afterHash_append {pre : List Char} (post : List Char) (h : '#' ∉ pre) :
    afterHash (pre ++ '#' :: post) = some post := by
  induction pre with
  | nil => simp [afterHash]
  | cons a p ih =>
    have ha : a ≠ '#' := fun hh => h (hh ▸ List.mem_cons_self a p)
    have hp : '#' ∉ p := fun hh => h (List.mem_cons_of_mem a hh)
    simp [afterHash, ha, ih hp]

/-- C6: the comment marker on the rest of a CVE line is the first `#`
whenever a `#` occurs anywhere in it, whatever else (such as an earlier
`//`) the prefix holds; the candidate is the comment text before the
first dash with trailing whitespace and `,;: ` stripped; and scenario C
yields exactly (CVE-2017-0143, EternalRomance/EternalSynergy). -/
theorem c6_comment_salvage :
    (∀ pre post : List Char, '#' ∉ pre →
        commentCandidate (pre ++ '#' :: post) = processComment post)
    ∧ commentCandidate (", // a # Real - x").toList = some "Real".toList
    ∧ commentCandidate (", // Name - x").toList = some "Name".toList
    ∧ extract_from_text txtC
        = [("CVE-2017-0143", "EternalRomance/EternalSynergy")] := by
  refine ⟨?_, by decide, by decide, by decide⟩
  intro pre post h
  unfold commentCandidate
  rw [afterHash_append post h]

/-- Pass 3 only ever appends, appends no duplicate of its own, and never
appends a CVE already in the list it starts from. -/
theorem pass3_appends (init : List (List Char)) (toks : List (List Char × List Char)) :
    ∃ extra, pass3 init toks = init ++ extra
      ∧ extra.Nodup ∧ ∀ c ∈ extra, c ∉ init := by
  induction toks generalizing init with
  | nil => exact ⟨[], by simp [pass3], List.nodup_nil, by simp⟩
  | cons t ts ih =>
    simp only [pass3]
    by_cases hc : (['C', 'V', 'E', '-'] ++ t.1 ++ '-' :: t.2) ∈ init
    · rw [if_pos hc]
      exact ih init
    · rw [if_neg hc]
      obtain ⟨extra, heq, hnd, hni⟩ := ih (init ++ [['C', 'V', 'E', '-'] ++ t.1 ++ '-' :: t.2])
      refine ⟨(['C', 'V', 'E', '-'] ++ t.1 ++ '-' :: t.2) :: extra, ?_, ?_, ?_⟩
      · rw [heq, List.append_assoc]
        rfl
      · refine List.nodup_cons.mpr ⟨?_, hnd⟩
        intro hm
        exact hni _ hm (List.mem_append_right init (List.mem_singleton.mpr rfl))
      · intro c hcm
        rcases List.mem_cons.mp hcm with rfl | hcm2
        · exact hc
        · intro hin
          exact hni c hcm2 (List.mem_append_left _ hin)

/-- C7: when an alias survives, the emitted rows pair each collected CVE
(in collection order) with that one alias; pass 3 appends generic tokens
only when absent from the list so far (and appends no duplicates), while
the literal-array pass deduplicates nothing — `txtDup` yields the same
CVE twice; `txtGen` shows generic tokens deduplicated against the
literal entry and one another. -/
theorem c7_cve_collection :
    (∀ text : String, ∀ a, firstSurvivingAka text = some a →
        extract_from_text text
          = (allCves text.toList).map (fun c => (String.mk c, String.mk a)))
    ∧ (∀ init toks, ∃ extra, pass3 init toks = init ++ extra
        ∧ extra.Nodup ∧ ∀ c ∈ extra, c ∉ init)
    ∧ extract_from_text txtDup = [("CVE-2018-1111", "Nm"), ("CVE-2018-1111", "Nm")]
    ∧ extract_from_text txtGen = [("CVE-2018-1111", "x"), ("CVE-2018-1112", "x")] := by
  refine ⟨?_, pass3_appends, by decide, by decide⟩
  intro text a ha
  unfold firstSurvivingAka at ha
  have hne : (mergedAkas text.toList).isEmpty = false := by
    cases hm : mergedAkas text.toList with
    | nil => rw [hm] at ha; simp at ha
    | cons x xs => rfl
  simp only [extract_from_text, hne, ha]
  simp only [Bool.false_eq_true, if_false]

/-- Values in `distinctFirst l` come from `l`. -/
theorem distinctFirst_sub (l : List String) : ∀ k ∈ distinctFirst l, k ∈ l := by
  induction l using distinctFirst.induct with
  | case1 => simp [distinctFirst]
  | case2 c rest ih =>
    intro k hk
    rw [distinctFirst] at hk
    rcases List.mem_cons.mp hk with rfl | hk2
    · exact List.mem_cons_self _ _
    · exact List.mem_cons_of_mem c (List.mem_of_mem_filter (ih k hk2))

/-- The CSV dedup loop emits, for each distinct not-yet-seen CVE in
first-appearance order, the first triple carrying it. -/
theorem csvDedup_firstper (seen : List String) (r : List (String × String × String)) :
    csvDedupRows seen r
      = (distinctFirst ((r.map (fun t => t.2.1)).filter
          (fun c => decide (c ∉ seen)))).filterMap (firstWithCve r) := by
  induction r generalizing seen with
  | nil => simp [csvDedupRows, distinctFirst]
  | cons t ts ih =>
    simp only [csvDedupRows, List.map_cons, List.filter_cons]
    by_cases hc : t.2.1 ∈ seen
    · rw [if_pos hc]
      have hd : decide (t.2.1 ∉ seen) = false := by simp [hc]
      rw [hd]
      simp only [Bool.false_eq_true, if_false]
      rw [ih seen]
      apply List.filterMap_congr
      intro k hk
      have hk4 := List.of_mem_filter (distinctFirst_sub _ k hk)
      have hk5 : k ∉ seen := by simpa using hk4
      have hkt : ¬ ((t.2.1 == k) = true) := by
        simp only [beq_iff_eq]
        intro he
        exact hk5 (he ▸ hc)
      unfold firstWithCve
      exact (@List.find?_cons_of_neg _ (fun x => x.2.1 == k) t ts hkt).symm
    · rw [if_neg hc]
      have hd : decide (t.2.1 ∉ seen) = true := by simp [hc]
      rw [hd]
      simp only [if_true]
      rw [distinctFirst]
      have hHead : firstWithCve (t :: ts) t.2.1 = some t := by
        unfold firstWithCve
        rw [List.find?_cons_of_pos]
        simp
      simp only [List.filterMap_cons, hHead]
      congr 1
      rw [List.filter_filter]
      have hfil : ∀ a ∈ ts.map (fun t => t.2.1),
          (!(a == t.2.1) && decide (a ∉ seen)) = decide (a ∉ t.2.1 :: seen) := by
        intro a _
        by_cases h1 : a = t.2.1 <;> by_cases h2 : a ∈ seen <;>
          simp [h1, h2, List.mem_cons]
      rw [List.filter_congr hfil, ih (t.2.1 :: seen)]
      apply List.filterMap_congr
      intro k hk
      have hk4 := List.of_mem_filter (distinctFirst_sub _ k hk)
      have hk5 : k ∉ t.2.1 :: seen := by simpa using hk4
      have hkt : ¬ ((t.2.1 == k) = true) := by
        simp only [beq_iff_eq]
        intro he
        exact hk5 (he ▸ List.mem_cons_self t.2.1 seen)
      unfold firstWithCve
      exact (@List.find?_cons_of_neg _ (fun x => x.2.1 == k) t ts hkt).symm

/-- The generated-map entry loop emits, for each distinct nonempty
not-yet-seen CVE in first-appearance order, a line built from the first
triple carrying it. -/
theorem tsEntries_firstper (seen : List String) (r : List (String × String × String)) :
    tsEntries seen r
      = (distinctFirst ((r.map (fun t => t.2.1)).filter
          (fun c => decide (c ≠ "" ∧ c ∉ seen)))).filterMap
          (fun k => (firstWithCve r k).map (fun t => tsLine k (escAka t.2.2))) := by
  induction r generalizing seen with
  | nil => simp [tsEntries, distinctFirst]
  | cons t ts ih =>
    simp only [tsEntries, List.map_cons, List.filter_cons]
    by_cases hc : t.2.1 ≠ "" ∧ t.2.1 ∉ seen
    · rw [if_pos hc]
      have hd : decide (t.2.1 ≠ "" ∧ t.2.1 ∉ seen) = true := by simp [hc.1, hc.2]
      rw [hd]
      simp only [if_true]
      rw [distinctFirst]
      have hHead : firstWithCve (t :: ts) t.2.1 = some t := by
        unfold firstWithCve
        rw [List.find?_cons_of_pos]
        simp
      simp only [List.filterMap_cons, hHead, Option.map_some']
      congr 1
      rw [List.filter_filter]
      have hfil : ∀ a ∈ ts.map (fun t => t.2.1),
          (!(a == t.2.1) && decide (a ≠ "" ∧ a ∉ seen))
            = decide (a ≠ "" ∧ a ∉ t.2.1 :: seen) := by
        intro a _
        by_cases h1 : a = t.2.1 <;> by_cases h2 : a ∈ seen <;>
          by_cases h3 : a = "" <;> simp [h1, h2, h3, List.mem_cons]
      rw [List.filter_congr hfil, ih (t.2.1 :: seen)]
      apply List.filterMap_congr
      intro k hk
      have hk4 := List.of_mem_filter (distinctFirst_sub _ k hk)
      have hk5 : k ≠ "" ∧ k ∉ t.2.1 :: seen := by simpa using hk4
      have hkt : ¬ ((t.2.1 == k) = true) := by
        simp only [beq_iff_eq]
        intro he
        exact hk5.2 (he ▸ List.mem_cons_self t.2.1 seen)
      unfold firstWithCve
      exact congrArg (Option.map _) (@List.find?_cons_of_neg _ (fun x => x.2.1 == k) t ts hkt).symm
    · rw [if_neg hc]
      have hd : decide (t.2.1 ≠ "" ∧ t.2.1 ∉ seen) = false := by
        simpa using hc
      rw [hd]
      simp only [Bool.false_eq_true, if_false]
      rw [ih seen]
      apply List.filterMap_congr
      intro k hk
      have hk4 := List.of_mem_filter (distinctFirst_sub _ k hk)
      have hk5 : k ≠ "" ∧ k ∉ seen := by simpa using hk4
      have hkt : ¬ ((t.2.1 == k) = true) := by
        simp only [beq_iff_eq]
        intro he
        rcases not_and_or.mp hc with h1 | h1
        · exact hk5.1 (he ▸ (not_not.mp h1).symm ▸ rfl)
        · exact hk5.2 (he ▸ not_not.mp h1)
      unfold firstWithCve
      exact congrArg (Option.map _) (@List.find?_cons_of_neg _ (fun x => x.2.1 == k) t ts hkt).symm

/-- C8: mapping output never consults the `--dedup` flag and always
keeps the first triple per nonempty CVE in collection order (aliases'
single quotes backslash-escaped), while CSV output emits every triple in
collection order unless `--dedup` is passed, in which case exactly the
first triple per CVE survives. -/
theorem c8_output_dedup :
    (∀ fs d1 d2, main_run fs true d1 = main_run fs true d2)
    ∧ (∀ r, tsEntries [] r
        = List.filterMap (fun k => (firstWithCve r k).map (fun t => tsLine k (escAka t.2.2)))
            (distinctFirst ((r.map (fun t => t.2.1)).filter (fun c => decide (c ≠ "")))))
    ∧ (∀ r, csvRows true r
        = (distinctFirst (r.map (fun t => t.2.1))).filterMap (firstWithCve r))
    ∧ (∀ r, csvRows false r = r)
    ∧ make_ts_map [("f", "CVE-2020-0001", "It's")]
        = "// generated from rapid7/metasploit-framework modules\nexport const cveToNameMap: Record<string,string> = \x7b\n  'CVE-2020-0001': 'It\\'s',\n\x7d;" := by
  refine ⟨fun fs d1 d2 => rfl, ?_, ?_, fun r => rfl, by decide⟩
  · intro r
    rw [tsEntries_firstper]
    have hfe : (r.map (fun t => t.2.1)).filter
          (fun c => decide (c ≠ "" ∧ c ∉ ([] : List String)))
        = (r.map (fun t => t.2.1)).filter (fun c => decide (c ≠ "")) := by
      apply List.filter_congr
      intro a _
      simp
    rw [hfe]
  · intro r
    show csvDedupRows [] r = _
    rw [csvDedup_firstper]
    have hfe : (r.map (fun t => t.2.1)).filter (fun c => decide (c ∉ ([] : List String)))
        = r.map (fun t => t.2.1) :=
      List.filter_eq_self.mpr (fun a _ => by simp)
    rw [hfe]

/-- C9: a run whose root path check fails exits with status 2 and prints
nothing; otherwise the run exits with status 0, and when the scan yields
zero triples it prints nothing at all — not even the CSV header. -/
theorem c9_exit_and_silence (fs : FileSys) (ts dedup : Bool) :
    (fs.rootIsDir = false → main_run fs ts dedup = (2, Out.silent))
    ∧ (fs.rootIsDir = true → (main_run fs ts dedup).1 = 0
        ∧ (scan_modules fs.files = [] → main_run fs ts dedup = (0, Out.silent))) := by
  constructor
  · intro h
    simp [main_run, h]
  · intro h
    constructor
    · simp only [main_run, h]
      simp only [Bool.not_true, Bool.false_eq_true, if_false]
      split
      · rfl
      · split <;> rfl
    · intro hscan
      simp [main_run, h, hscan]

/-- C9 witness: the statement at a failing root and at an empty scan. -/
theorem c9_exit_and_silence_witness :
    ((FileSys.mk false []).rootIsDir = false
        → main_run (FileSys.mk false []) true false = (2, Out.silent))
    ∧ ((FileSys.mk false []).rootIsDir = true
        → (main_run (FileSys.mk false []) true false).1 = 0
          ∧ (scan_modules (FileSys.mk false []).files = []
              → main_run (FileSys.mk false []) true false = (0, Out.silent))) :=
  c9_exit_and_silence (FileSys.mk false []) true false

/-- The filesystem of the C10 demonstration: one file whose text holds a
literal CVE entry with an empty second element. -/
def fsEmptyCve : FileSys := FileSys.mk true [("f", txtEmptyCve)]

/-- C10: `normalize_cve ""` is `""`, so a literal `['CVE', '']` yields a
triple with an empty CVE string; CSV mode emits a row with an empty cve
field for it, while mapping mode's truthiness guard drops it — the two
output modes disagree on which triples appear. -/
theorem c10_empty_cve_disagreement :
    normalize_cve "" = ""
    ∧ extract_from_text txtEmptyCve = [("", "Name")]
    ∧ main_run fsEmptyCve false false
        = (0, Out.csv [["file", "cve", "aka"], ["f", "", "Name"]])
    ∧ main_run fsEmptyCve true false
        = (0, Out.tsMap "// generated from rapid7/metasploit-framework modules\nexport const cveToNameMap: Record<string,string> = \x7b\n\x7d;") := by
  decide

/-- C4 counterexample: `txtAextra` contains both scenario A literals,
yet the pair (CVE-2014-0160, Heartbleed) is not among its results — the
earlier alias `Other` is paired instead. -/
theorem c4_counterexample :
    hasSub litAka.toList txtAextra.toList = true
    ∧ hasSub litCve.toList txtAextra.toList = true
    ∧ extract_from_text txtAextra = [("CVE-2014-0160", "Other")]
    ∧ ("CVE-2014-0160", "Heartbleed") ∉ extract_from_text txtAextra := by
  decide

/-- C4 (amended): a file whose text is the two scenario A literals
joined by a newline, in either order, yields exactly the single pair
(CVE-2014-0160, Heartbleed).  (A file merely containing both literals
need not: an alias candidate occurring earlier wins, see the
counterexample.) -/
theorem c4_heartbleed_pair :
    extract_from_text txtA1 = [("CVE-2014-0160", "Heartbleed")]
    ∧ extract_from_text txtA2 = [("CVE-2014-0160", "Heartbleed")] := by
  decide

end FindAkaCve
